import Mathlib

/-!
Shallow embedding of the Beta-Bernoulli bandit notebook code
(`f`, `num_nodes`, `minimize_func`, `Previous_Nodes_Func`, `Bernoulli_Bandit`).

States are 4-tuples of pseudo-counts (α₁, β₁, α₂, β₂), kept as naturals.
All notebook arithmetic on values is embedded with exact rationals (ℚ).
A pandas data frame holding states with computed columns is embedded as a
list of tuples; the row lookup `Final_Nodes.values[mask, 4]` is embedded as
a first-match association-list lookup returning `Option ℚ`, and the crash
that the notebook would hit when a successor state is absent (empty numpy
selection fed to `minimize_scalar`) is embedded as `Option.none`
propagating out of the whole computation.
-/

namespace BanditNB

/-- A bandit posterior state: the four Beta pseudo-counts (α₁, β₁, α₂, β₂),
in the column order 0,1,2,3 used by the notebook's data frames. -/
structure BanditState where
  a1 : ℕ
  b1 : ℕ
  a2 : ℕ
  b2 : ℕ
deriving DecidableEq, Repr

/-- Successor `A = Node + [1,0,0,0]`: pull arm 1, observe a success. -/
def succA (s : BanditState) : BanditState := ⟨s.a1 + 1, s.b1, s.a2, s.b2⟩

/-- Successor `B = Node + [0,1,0,0]`: pull arm 1, observe a failure. -/
def succB (s : BanditState) : BanditState := ⟨s.a1, s.b1 + 1, s.a2, s.b2⟩

/-- Successor `C = Node + [0,0,1,0]`: pull arm 2, observe a success. -/
def succC (s : BanditState) : BanditState := ⟨s.a1, s.b1, s.a2 + 1, s.b2⟩

/-- Successor `D = Node + [0,0,0,1]`: pull arm 2, observe a failure. -/
def succD (s : BanditState) : BanditState := ⟨s.a1, s.b1, s.a2, s.b2 + 1⟩

/-- The four one-pull successors `A, B, C, D` of a state, in the order the
notebook builds them: increment α₁, β₁, α₂, β₂ respectively. -/
def succsList (s : BanditState) : List BanditState :=
  [succA s, succB s, succC s, succD s]

/-- Keep-first-occurrence deduplication with an accumulator of already seen
states; embeds `pandas.DataFrame.drop_duplicates`. -/
def dropDupAux (seen : List BanditState) : List BanditState → List BanditState
  | [] => []
  | x :: xs => if x ∈ seen then dropDupAux seen xs else x :: dropDupAux (x :: seen) xs

/-- `pandas.DataFrame.drop_duplicates`: delete every row equal to an earlier row. -/
def drop_duplicates (l : List BanditState) : List BanditState := dropDupAux [] l

/-- One iteration of the inner loop of `f`: concatenate the four successor
rows of every node, then drop duplicate rows. -/
def layerStep (nodes : List BanditState) : List BanditState :=
  drop_duplicates (nodes.flatMap succsList)

/-- The notebook's `f(a, b, c, d, n)`: for `n = 1` the single initial row;
otherwise start from the four successors of the initial state and apply the
expand-and-deduplicate step once for each `j in range(2, n)`. -/
def f (a b c d n : ℕ) : List BanditState :=
  if n = 1 then [⟨a, b, c, d⟩]
  else (List.range (n - 2)).foldl (fun nodes _ => layerStep nodes) (succsList ⟨a, b, c, d⟩)

/-- The terminal (greedy) value the notebook's `Bernoulli_Bandit` writes into
column 4 of the final layer: `max(E_1, E_2)` with
`E_1 = col0/(col0+col1)` and `E_2 = col2/(col2+col3)`. -/
def terminalValue (s : BanditState) : ℚ :=
  max ((s.a1 : ℚ) / ((s.a1 : ℚ) + (s.b1 : ℚ))) ((s.a2 : ℚ) / ((s.a2 : ℚ) + (s.b2 : ℚ)))

/-- The notebook's `minimize_func(p, E1, E2, E3, E4)`:
`-(p*(1 + E1) + p*(0 + E2) + (1-p)*(1 + E3) + (1-p)*(0 + E4))`. -/
def minimize_func (p E1 E2 E3 E4 : ℚ) : ℚ :=
  -(p * (1 + E1) + p * (0 + E2) + (1 - p) * (1 + E3) + (1 - p) * (0 + E4))

/-- Modelled from the spec (the call into the external scipy library is not
part of this repository's sources): `np.round` applied to the `x` returned by
`scipy.optimize.minimize_scalar(minimize_func, method = bounded, bounds = [0,1],
args = (E1, E2, E3, E4))`.  The objective is linear in `p`, so the bounded
minimizer lies at an endpoint of `[0,1]` and rounding it returns that endpoint;
on an exact tie the objective is constant in `p` and the rounded point is
taken to be `0` (either endpoint gives the same objective value). -/
def round_minimize_scalar (E1 E2 E3 E4 : ℚ) : ℚ :=
  if minimize_func 1 E1 E2 E3 E4 < minimize_func 0 E1 E2 E3 E4 then 1 else 0

/-- Row lookup `Final_Nodes.values[np.alltrue(Final_Nodes.ix[:,0:3] == A, axis=1), 4]`:
the value column of the first row whose state columns equal `s`, or `none`
when no row matches (the notebook then crashes on the empty selection). -/
def lookupVal (T : List (BanditState × ℚ)) (s : BanditState) : Option ℚ :=
  (T.find? (fun r => decide (r.1 = s))).map (fun r => r.2)

/-- The per-row body of the loop in `Previous_Nodes_Func`, iterated over a list
of nodes: look the four successors' values up in the final-layer table, pick
`choice` by the rounded bounded scalar minimization, and record
`(state, -(minimize_func choice E1 E2 E3 E4), choice)`.  A failed lookup
aborts the whole computation (`none`). -/
def PNF_rows (Final : List (BanditState × ℚ)) : List BanditState → Option (List (BanditState × ℚ × ℚ))
  | [] => some []
  | s :: rest =>
    match lookupVal Final (succA s), lookupVal Final (succB s),
          lookupVal Final (succC s), lookupVal Final (succD s) with
    | some E1, some E2, some E3, some E4 =>
      (PNF_rows Final rest).map
        (fun tl =>
          (s, -(minimize_func (round_minimize_scalar E1 E2 E3 E4) E1 E2 E3 E4),
           round_minimize_scalar E1 E2 E3 E4) :: tl)
    | _, _, _, _ => none

/-- The notebook's `Previous_Nodes_Func(a1, b1, a2, b2, N, Final_Nodes)`:
enumerate the layer-`N` nodes with `f` and fill in the value column 4 and the
machine-choice column 5 for each row from the next layer's table. -/
def Previous_Nodes_Func (a1 b1 a2 b2 N : ℕ) (Final : List (BanditState × ℚ)) :
    Option (List (BanditState × ℚ × ℚ)) :=
  PNF_rows Final (f a1 b1 a2 b2 N)

/-- A solver table: each row is a state, its value column, and (for rows
produced by `Previous_Nodes_Func`, not for the terminal layer) its
machine-choice column. -/
abbrev Table := List (BanditState × ℚ × Option ℚ)

/-- Forget the choice column, keeping what `Previous_Nodes_Func` reads from
the next layer's table: state columns 0..3 and value column 4. -/
def stripChoice (T : Table) : List (BanditState × ℚ) :=
  T.map (fun r => (r.1, r.2.1))

/-- The backward loop `for j in range(1, N)[::-1]` of `Bernoulli_Bandit`:
`backLoop a1 b1 a2 b2 j T` runs `Previous_Nodes_Func` for layers
`j, j-1, ..., 1`, starting from the layer-`(j+1)` table `T`. -/
def backLoop (a1 b1 a2 b2 : ℕ) : ℕ → Table → Option Table
  | 0, T => some T
  | j + 1, T =>
    (Previous_Nodes_Func a1 b1 a2 b2 (j + 1) (stripChoice T)).bind
      (fun T2 => backLoop a1 b1 a2 b2 j (T2.map (fun r => (r.1, r.2.1, some r.2.2))))

/-- The notebook's `Bernoulli_Bandit(a1, b1, a2, b2, N)`: build the final
layer `f(a1,b1,a2,b2,N)`, give each of its rows the greedy terminal value,
then run the backward loop over `j = N-1, ..., 1` and return the last table. -/
def Bernoulli_Bandit (a1 b1 a2 b2 N : ℕ) : Option Table :=
  backLoop a1 b1 a2 b2 (N - 1)
    ((f a1 b1 a2 b2 N).map (fun s => (s, terminalValue s, none)))

/-- The value that the backward pass assigns to a state `t` layers above the
terminal layer: `t = 0` is the greedy terminal value; one step up the value is
`-(minimize_func choice E1 E2 E3 E4)` with `E1..E4` the four successors'
values one layer down and `choice` the rounded bounded scalar minimizer. -/
def V : BanditState → ℕ → ℚ
  | s, 0 => terminalValue s
  | s, t + 1 =>
    -(minimize_func
        (round_minimize_scalar (V (succA s) t) (V (succB s) t) (V (succC s) t) (V (succD s) t))
        (V (succA s) t) (V (succB s) t) (V (succC s) t) (V (succD s) t))

/-- The choice column the backward pass assigns to a state `t + 1` layers
above the terminal layer. -/
def Vchoice (s : BanditState) (t : ℕ) : ℚ :=
  round_minimize_scalar (V (succA s) t) (V (succB s) t) (V (succC s) t) (V (succD s) t)

/-- Posterior mean of arm 1, `α₁/(α₁+β₁)`. -/
def postMean1 (s : BanditState) : ℚ := (s.a1 : ℚ) / ((s.a1 : ℚ) + (s.b1 : ℚ))

/-- Posterior mean of arm 2, `α₂/(α₂+β₂)`. -/
def postMean2 (s : BanditState) : ℚ := (s.a2 : ℚ) / ((s.a2 : ℚ) + (s.b2 : ℚ))

/-- Modelled from the spec: the value recursion the specification claims the
solver computes, `V(s,t) = max over arm j of [p_j + p_j·V(success_j, t-1) +
(1-p_j)·V(failure_j, t-1)]` with `p_j` the posterior mean of arm `j`, and the
greedy terminal value at the last layer. -/
def specV : BanditState → ℕ → ℚ
  | s, 0 => terminalValue s
  | s, t + 1 =>
    max (postMean1 s * (1 + specV (succA s) t) + (1 - postMean1 s) * specV (succB s) t)
        (postMean2 s * (1 + specV (succC s) t) + (1 - postMean2 s) * specV (succD s) t)

/-- Follows the spec's words for the refinement claim: the direct discrete
two-way maximization of the two arms' computed values, the value of arm 1
being `-(minimize_func 1 ...)` and the value of arm 2 `-(minimize_func 0 ...)`. -/
def direct_two_way_max (E1 E2 E3 E4 : ℚ) : ℚ :=
  max (-(minimize_func 1 E1 E2 E3 E4)) (-(minimize_func 0 E1 E2 E3 E4))

/-- Exchanging the two arms' pseudo-count pairs. -/
def swapArms (s : BanditState) : BanditState := ⟨s.a2, s.b2, s.a1, s.b1⟩

/-- The backward pass's computed value for pulling arm 1 at a state whose
successors' values sit `t` layers above the terminal layer. -/
def armValue1 (s : BanditState) (t : ℕ) : ℚ :=
  -(minimize_func 1 (V (succA s) t) (V (succB s) t) (V (succC s) t) (V (succD s) t))

/-- The backward pass's computed value for pulling arm 2. -/
def armValue2 (s : BanditState) (t : ℕ) : ℚ :=
  -(minimize_func 0 (V (succA s) t) (V (succB s) t) (V (succC s) t) (V (succD s) t))

/-! ### Deduplication lemmas -/

theorem mem_dropDupAux (l : List BanditState) :
    ∀ (seen : List BanditState) (x : BanditState),
      x ∈ dropDupAux seen l ↔ x ∈ l ∧ x ∉ seen := by
  induction l with
  | nil => intro seen x; simp [dropDupAux]
  | cons y ys ih =>
    intro seen x
    by_cases hy : y ∈ seen
    · simp only [dropDupAux, if_pos hy, ih, List.mem_cons]
      constructor
      · rintro ⟨hx, hs⟩; exact ⟨Or.inr hx, hs⟩
      · rintro ⟨hx | hx, hs⟩
        · subst hx; exact absurd hy hs
        · exact ⟨hx, hs⟩
    · simp only [dropDupAux, if_neg hy, List.mem_cons, ih]
      constructor
      · rintro (rfl | ⟨hx, hs⟩)
        · exact ⟨Or.inl rfl, hy⟩
        · exact ⟨Or.inr hx, fun h => hs (Or.inr h)⟩
      · rintro ⟨rfl | hx, hs⟩
        · exact Or.inl rfl
        · by_cases hxy : x = y
          · exact Or.inl hxy
          · refine Or.inr ⟨hx, fun hmem => ?_⟩
            rcases hmem with h1 | h2
            · exact hxy h1
            · exact hs h2

theorem nodup_dropDupAux (l : List BanditState) :
    ∀ seen : List BanditState, (dropDupAux seen l).Nodup := by
  induction l with
  | nil => intro seen; simp [dropDupAux]
  | cons y ys ih =>
    intro seen
    by_cases hy : y ∈ seen
    · simpa [dropDupAux, if_pos hy] using ih seen
    · simp only [dropDupAux, if_neg hy, List.nodup_cons]
      refine ⟨fun hmem => ?_, ih _⟩
      rcases (mem_dropDupAux ys (y :: seen) y).mp hmem with ⟨-, hns⟩
      exact hns (List.mem_cons_self _ _)

theorem dropDupAux_eq_self (l : List BanditState) :
    ∀ seen : List BanditState, l.Nodup → (∀ x ∈ l, x ∉ seen) → dropDupAux seen l = l := by
  induction l with
  | nil => intro seen _ _; rfl
  | cons y ys ih =>
    intro seen hnd hdisj
    have hy : y ∉ seen := hdisj y (List.mem_cons_self _ _)
    simp only [dropDupAux, if_neg hy]
    rcases List.nodup_cons.mp hnd with ⟨hyys, hnd'⟩
    refine congrArg (y :: ·) (ih _ hnd' ?_)
    intro x hx
    simp only [List.mem_cons]
    rintro (rfl | hxs)
    · exact hyys hx
    · exact hdisj x (List.mem_cons_of_mem _ hx) hxs

theorem mem_drop_duplicates (l : List BanditState) (x : BanditState) :
    x ∈ drop_duplicates l ↔ x ∈ l := by
  simp [drop_duplicates, mem_dropDupAux]

theorem nodup_drop_duplicates (l : List BanditState) : (drop_duplicates l).Nodup :=
  nodup_dropDupAux l []

theorem drop_duplicates_eq_self (l : List BanditState) (h : l.Nodup) :
    drop_duplicates l = l :=
  dropDupAux_eq_self l [] h (by simp)

/-! ### Enumerator lemmas -/

theorem succsList_nodup (s : BanditState) : (succsList s).Nodup := by
  simp [succsList, succA, succB, succC, succD, BanditState.mk.injEq]

theorem mem_layerStep (L : List BanditState) (x : BanditState) :
    x ∈ layerStep L ↔ ∃ y ∈ L, x ∈ succsList y := by
  simp [layerStep, mem_drop_duplicates, List.mem_flatMap]

theorem f_one (a b c d : ℕ) : f a b c d 1 = [⟨a, b, c, d⟩] := rfl

theorem f_two (a b c d : ℕ) : f a b c d 2 = succsList ⟨a, b, c, d⟩ := rfl

theorem f_succ (a b c d : ℕ) :
    ∀ n, 1 ≤ n → f a b c d (n + 1) = layerStep (f a b c d n) := by
  intro n hn
  match n, hn with
  | 1, _ =>
    rw [f_two, f_one]
    have h1 : layerStep [(⟨a, b, c, d⟩ : BanditState)] =
        drop_duplicates (succsList ⟨a, b, c, d⟩) := by
      simp [layerStep]
    rw [h1, drop_duplicates_eq_self _ (succsList_nodup _)]
  | (m + 2), _ =>
    show f a b c d (m + 3) = layerStep (f a b c d (m + 2))
    have h3 : f a b c d (m + 3) =
        (List.range (m + 1)).foldl (fun nodes _ => layerStep nodes) (succsList ⟨a, b, c, d⟩) := by
      simp [f]
    have h2 : f a b c d (m + 2) =
        (List.range m).foldl (fun nodes _ => layerStep nodes) (succsList ⟨a, b, c, d⟩) := by
      simp [f]
    rw [h3, h2, List.range_succ, List.foldl_append]
    simp [layerStep]

theorem mem_f (a b c d : ℕ) :
    ∀ (k : ℕ) (x : BanditState),
      x ∈ f a b c d (k + 1) ↔
        ∃ i j l m, i + j + l + m = k ∧ x = ⟨a + i, b + j, c + l, d + m⟩ := by
  intro k
  induction k with
  | zero =>
    intro x
    rw [f_one]
    constructor
    · intro hx
      refine ⟨0, 0, 0, 0, rfl, ?_⟩
      simpa using List.mem_singleton.mp hx
    · rintro ⟨i, j, l, m, hsum, rfl⟩
      have hi : i = 0 := by omega
      have hj : j = 0 := by omega
      have hl : l = 0 := by omega
      have hm : m = 0 := by omega
      subst hi; subst hj; subst hl; subst hm
      simp
  | succ k ih =>
    intro x
    rw [show k + 1 + 1 = (k + 1) + 1 from rfl, f_succ a b c d (k + 1) (by omega),
      mem_layerStep]
    constructor
    · rintro ⟨y, hy, hx⟩
      rcases (ih y).mp hy with ⟨i, j, l, m, hsum, rfl⟩
      simp only [succsList, succA, succB, succC, succD, List.mem_cons,
        List.mem_singleton, List.not_mem_nil, or_false] at hx
      rcases hx with rfl | rfl | rfl | rfl
      · exact ⟨i + 1, j, l, m, by omega, rfl⟩
      · exact ⟨i, j + 1, l, m, by omega, rfl⟩
      · exact ⟨i, j, l + 1, m, by omega, rfl⟩
      · exact ⟨i, j, l, m + 1, by omega, rfl⟩
    · rintro ⟨i, j, l, m, hsum, rfl⟩
      match i, j, l, m, hsum with
      | i + 1, j, l, m, hsum =>
        refine ⟨⟨a + i, b + j, c + l, d + m⟩, (ih _).mpr ⟨i, j, l, m, by omega, rfl⟩, ?_⟩
        have he : (⟨a + (i + 1), b + j, c + l, d + m⟩ : BanditState)
            = succA ⟨a + i, b + j, c + l, d + m⟩ := rfl
        rw [he]; simp [succsList]
      | 0, j + 1, l, m, hsum =>
        refine ⟨⟨a + 0, b + j, c + l, d + m⟩, (ih _).mpr ⟨0, j, l, m, by omega, rfl⟩, ?_⟩
        have he : (⟨a + 0, b + (j + 1), c + l, d + m⟩ : BanditState)
            = succB ⟨a + 0, b + j, c + l, d + m⟩ := rfl
        rw [he]; simp [succsList]
      | 0, 0, l + 1, m, hsum =>
        refine ⟨⟨a + 0, b + 0, c + l, d + m⟩, (ih _).mpr ⟨0, 0, l, m, by omega, rfl⟩, ?_⟩
        have he : (⟨a + 0, b + 0, c + (l + 1), d + m⟩ : BanditState)
            = succC ⟨a + 0, b + 0, c + l, d + m⟩ := rfl
        rw [he]; simp [succsList]
      | 0, 0, 0, m + 1, hsum =>
        refine ⟨⟨a + 0, b + 0, c + 0, d + m⟩, (ih _).mpr ⟨0, 0, 0, m, by omega, rfl⟩, ?_⟩
        have he : (⟨a + 0, b + 0, c + 0, d + (m + 1)⟩ : BanditState)
            = succD ⟨a + 0, b + 0, c + 0, d + m⟩ := rfl
        rw [he]; simp [succsList]

theorem nodup_f (a b c d : ℕ) : ∀ n, (f a b c d n).Nodup := by
  intro n
  match n with
  | 0 => exact succsList_nodup _
  | 1 => simp [f_one]
  | 2 => rw [f_two]; exact succsList_nodup _
  | (m + 3) =>
    rw [show m + 3 = (m + 2) + 1 from rfl, f_succ a b c d (m + 2) (by omega)]
    exact nodup_drop_duplicates _

theorem succs_closure (a b c d : ℕ) (n : ℕ) (hn : 1 ≤ n) (s : BanditState)
    (hs : s ∈ f a b c d n) : ∀ x ∈ succsList s, x ∈ f a b c d (n + 1) := by
  intro x hx
  rw [f_succ a b c d n hn, mem_layerStep]
  exact ⟨s, hs, hx⟩

/-! ### Counting the states of a layer -/

/-- Triples of naturals summing to `k`. -/
def Q3 (k : ℕ) : Finset (ℕ × ℕ × ℕ) :=
  (Finset.antidiagonal k).biUnion
    (fun p => (Finset.antidiagonal p.2).image (fun q => (p.1, q.1, q.2)))

/-- Quadruples of naturals summing to `k`. -/
def Q4 (k : ℕ) : Finset (ℕ × ℕ × ℕ × ℕ) :=
  (Finset.antidiagonal k).biUnion
    (fun p => (Q3 p.2).image (fun q => (p.1, q.1, q.2.1, q.2.2)))

theorem mem_Q3 (k : ℕ) (x : ℕ × ℕ × ℕ) :
    x ∈ Q3 k ↔ x.1 + x.2.1 + x.2.2 = k := by
  simp only [Q3, Finset.mem_biUnion, Finset.mem_image, Finset.mem_antidiagonal,
    Prod.exists]
  constructor
  · rintro ⟨p1, p2, hp, q1, q2, hq, rfl⟩
    simp only
    omega
  · intro hx
    exact ⟨x.1, x.2.1 + x.2.2, by omega, x.2.1, x.2.2, rfl, rfl⟩

theorem mem_Q4 (k : ℕ) (x : ℕ × ℕ × ℕ × ℕ) :
    x ∈ Q4 k ↔ x.1 + x.2.1 + x.2.2.1 + x.2.2.2 = k := by
  simp only [Q4, Finset.mem_biUnion, Finset.mem_image, Finset.mem_antidiagonal,
    Prod.exists]
  constructor
  · rintro ⟨p1, p2, hp, q1, q2, q3, hq, rfl⟩
    rw [mem_Q3] at hq
    simp only at hq ⊢
    omega
  · intro hx
    refine ⟨x.1, x.2.1 + x.2.2.1 + x.2.2.2, by omega,
      x.2.1, x.2.2.1, x.2.2.2, ?_, rfl⟩
    rw [mem_Q3]

theorem sum_choose_two (k : ℕ) :
    ∑ m ∈ Finset.range (k + 1), (m + 1) = (k + 2).choose 2 := by
  induction k with
  | zero => rfl
  | succ k ih =>
    rw [Finset.sum_range_succ, ih]
    have hp : (k + 1 + 2).choose 2 = (k + 2).choose 1 + (k + 2).choose 2 := rfl
    rw [hp, Nat.choose_one_right]
    omega

theorem sum_choose_three (k : ℕ) :
    ∑ m ∈ Finset.range (k + 1), (m + 2).choose 2 = (k + 3).choose 3 := by
  induction k with
  | zero => rfl
  | succ k ih =>
    rw [Finset.sum_range_succ, ih]
    have hp : (k + 1 + 3).choose 3 = (k + 3).choose 2 + (k + 3).choose 3 := rfl
    have he : k + 1 + 2 = k + 3 := rfl
    rw [hp, he]
    omega

theorem card_Q3 (k : ℕ) : (Q3 k).card = (k + 2).choose 2 := by
  rw [Q3, Finset.card_biUnion]
  · have hcard : ∀ p ∈ Finset.antidiagonal k,
        ((Finset.antidiagonal p.2).image (fun q => (p.1, q.1, q.2))).card = p.2 + 1 := by
      intro p _
      rw [Finset.card_image_of_injective _ (fun q q' hq => by
        simpa [Prod.ext_iff] using hq), Finset.Nat.card_antidiagonal]
    rw [Finset.sum_congr rfl hcard, Finset.Nat.sum_antidiagonal_eq_sum_range_succ_mk]
    simp only
    calc ∑ i ∈ Finset.range (k + 1), (k - i + 1)
        = ∑ i ∈ Finset.range (k + 1), ((k + 1) - 1 - i + 1) := by
          refine Finset.sum_congr rfl (fun i hi => ?_)
          have := Finset.mem_range.mp hi
          omega
      _ = ∑ i ∈ Finset.range (k + 1), (i + 1) := Finset.sum_range_reflect (fun i => i + 1) (k + 1)
      _ = (k + 2).choose 2 := sum_choose_two k
  · intro p hp p' hp' hne
    simp only [Finset.disjoint_left, Finset.mem_image, Prod.exists]
    rintro x ⟨q1, q2, hq, rfl⟩ ⟨r1, r2, hr, he⟩
    apply hne
    rw [Finset.mem_antidiagonal] at hp hp'
    have h1 : p'.1 = p.1 := by simpa [Prod.ext_iff] using congrArg Prod.fst he
    have : p.2 = p'.2 := by omega
    exact Prod.ext (h1.symm) this

theorem card_Q4 (k : ℕ) : (Q4 k).card = (k + 3).choose 3 := by
  rw [Q4, Finset.card_biUnion]
  · have hcard : ∀ p ∈ Finset.antidiagonal k,
        ((Q3 p.2).image (fun q => (p.1, q.1, q.2.1, q.2.2))).card = (p.2 + 2).choose 2 := by
      intro p _
      rw [Finset.card_image_of_injective _ (fun q q' hq => by
        simpa [Prod.ext_iff] using hq), card_Q3]
    rw [Finset.sum_congr rfl hcard, Finset.Nat.sum_antidiagonal_eq_sum_range_succ_mk]
    simp only
    calc ∑ i ∈ Finset.range (k + 1), (k - i + 2).choose 2
        = ∑ i ∈ Finset.range (k + 1), ((k + 1) - 1 - i + 2).choose 2 := by
          refine Finset.sum_congr rfl (fun i hi => ?_)
          have hi' := Finset.mem_range.mp hi
          have harg : (k + 1) - 1 - i = k - i := by omega
          rw [harg]
      _ = ∑ i ∈ Finset.range (k + 1), (i + 2).choose 2 :=
          Finset.sum_range_reflect (fun i => (i + 2).choose 2) (k + 1)
      _ = (k + 3).choose 3 := sum_choose_three k
  · intro p hp p' hp' hne
    simp only [Finset.disjoint_left, Finset.mem_image, Prod.exists]
    rintro x ⟨q1, q2, q3, hq, rfl⟩ ⟨r1, r2, r3, hr, he⟩
    apply hne
    rw [Finset.mem_antidiagonal] at hp hp'
    have h1 : p'.1 = p.1 := by simpa [Prod.ext_iff] using congrArg Prod.fst he
    have : p.2 = p'.2 := by omega
    exact Prod.ext (h1.symm) this

/-- The injection from increment quadruples to states of the layer. -/
def addState (a b c d : ℕ) (x : ℕ × ℕ × ℕ × ℕ) : BanditState :=
  ⟨a + x.1, b + x.2.1, c + x.2.2.1, d + x.2.2.2⟩

theorem addState_injective (a b c d : ℕ) : Function.Injective (addState a b c d) := by
  intro x y h
  simp only [addState, BanditState.mk.injEq] at h
  refine Prod.ext (by omega) (Prod.ext (by omega) (Prod.ext (by omega) (by omega)))

theorem f_toFinset (a b c d k : ℕ) :
    (f a b c d (k + 1)).toFinset = (Q4 k).image (addState a b c d) := by
  ext s
  rw [List.mem_toFinset, mem_f, Finset.mem_image]
  constructor
  · rintro ⟨i, j, l, m, hsum, rfl⟩
    exact ⟨(i, j, l, m), (mem_Q4 k _).mpr (by simpa using hsum), rfl⟩
  · rintro ⟨x, hx, rfl⟩
    rw [mem_Q4] at hx
    exact ⟨x.1, x.2.1, x.2.2.1, x.2.2.2, by omega, rfl⟩

theorem f_length (a b c d k : ℕ) :
    (f a b c d (k + 1)).length = (k + 3).choose 3 := by
  rw [← List.toFinset_card_of_nodup (nodup_f a b c d (k + 1)), f_toFinset,
    Finset.card_image_of_injective _ (addState_injective a b c d), card_Q4]

/-! ### The per-row computation: rounded relaxation versus discrete maximum -/

theorem neg_minimize_func_one (E1 E2 E3 E4 : ℚ) :
    -(minimize_func 1 E1 E2 E3 E4) = 1 + E1 + E2 := by
  simp only [minimize_func]
  ring

theorem neg_minimize_func_zero (E1 E2 E3 E4 : ℚ) :
    -(minimize_func 0 E1 E2 E3 E4) = 1 + E3 + E4 := by
  simp only [minimize_func]
  ring

theorem round_minimize_scalar_mem (E1 E2 E3 E4 : ℚ) :
    round_minimize_scalar E1 E2 E3 E4 = 0 ∨ round_minimize_scalar E1 E2 E3 E4 = 1 := by
  rw [round_minimize_scalar]
  split
  · exact Or.inr rfl
  · exact Or.inl rfl

theorem neg_minimize_func_round (E1 E2 E3 E4 : ℚ) :
    -(minimize_func (round_minimize_scalar E1 E2 E3 E4) E1 E2 E3 E4) =
      max (1 + E1 + E2) (1 + E3 + E4) := by
  rw [round_minimize_scalar]
  split
  · next h =>
    rw [neg_minimize_func_one]
    have h' : 1 + E3 + E4 < 1 + E1 + E2 := by
      have h1 := neg_minimize_func_one E1 E2 E3 E4
      have h0 := neg_minimize_func_zero E1 E2 E3 E4
      have : -(1 + E1 + E2) < -(1 + E3 + E4) := by
        rw [← h1, ← h0, neg_neg, neg_neg]
        exact h
      linarith
    exact (max_eq_left h'.le).symm
  · next h =>
    rw [neg_minimize_func_zero]
    have h' : 1 + E1 + E2 ≤ 1 + E3 + E4 := by
      have h1 := neg_minimize_func_one E1 E2 E3 E4
      have h0 := neg_minimize_func_zero E1 E2 E3 E4
      have : -(1 + E3 + E4) ≤ -(1 + E1 + E2) := by
        rw [← h1, ← h0, neg_neg, neg_neg]
        exact not_lt.mp h
      linarith
    exact (max_eq_right h').symm

theorem V_succ_eq_max (s : BanditState) (t : ℕ) :
    V s (t + 1) =
      max (1 + V (succA s) t + V (succB s) t) (1 + V (succC s) t + V (succD s) t) := by
  rw [show V s (t + 1) =
      -(minimize_func
          (round_minimize_scalar (V (succA s) t) (V (succB s) t) (V (succC s) t) (V (succD s) t))
          (V (succA s) t) (V (succB s) t) (V (succC s) t) (V (succD s) t)) from rfl,
    neg_minimize_func_round]

theorem V_nonneg (s : BanditState) (t : ℕ) : 0 ≤ V s t := by
  induction t generalizing s with
  | zero =>
    have h1 : (0 : ℚ) ≤ (s.a1 : ℚ) / ((s.a1 : ℚ) + (s.b1 : ℚ)) :=
      div_nonneg (Nat.cast_nonneg _) (by positivity)
    exact le_max_of_le_left h1
  | succ t ih =>
    rw [V_succ_eq_max]
    have h1 : (0 : ℚ) ≤ 1 + V (succA s) t + V (succB s) t := by
      have := ih (succA s); have := ih (succB s); linarith
    exact le_max_of_le_left h1

/-! ### The table computation agrees with the value recursion `V` -/

theorem lookupVal_spec (t : ℕ) (T : List (BanditState × ℚ))
    (hval : ∀ r ∈ T, r.2 = V r.1 t) (s : BanditState)
    (hs : s ∈ T.map Prod.fst) : lookupVal T s = some (V s t) := by
  induction T with
  | nil => simp at hs
  | cons r T ih =>
    by_cases hr : r.1 = s
    · rw [lookupVal, List.find?_cons_of_pos _ (by simp [hr])]
      show some r.2 = some (V s t)
      rw [hval r (List.mem_cons_self _ _), hr]
    · rw [lookupVal, List.find?_cons_of_neg _ (by simp [hr])]
      have hs' : s ∈ T.map Prod.fst := by
        rcases List.mem_cons.mp hs with h1 | h2
        · exact absurd h1.symm hr
        · exact h2
      exact ih (fun r hr => hval r (List.mem_cons_of_mem _ hr)) hs'

theorem PNF_rows_spec (t : ℕ) (Final : List (BanditState × ℚ))
    (hval : ∀ r ∈ Final, r.2 = V r.1 t) :
    ∀ states : List BanditState,
      (∀ s ∈ states, ∀ x ∈ succsList s, x ∈ Final.map Prod.fst) →
      PNF_rows Final states =
        some (states.map (fun s => (s, V s (t + 1), Vchoice s t))) := by
  intro states
  induction states with
  | nil => intro _; rfl
  | cons s rest ih =>
    intro hmem
    have hA : lookupVal Final (succA s) = some (V (succA s) t) :=
      lookupVal_spec t Final hval _
        (hmem s (List.mem_cons_self _ _) _ (by simp [succsList]))
    have hB : lookupVal Final (succB s) = some (V (succB s) t) :=
      lookupVal_spec t Final hval _
        (hmem s (List.mem_cons_self _ _) _ (by simp [succsList]))
    have hC : lookupVal Final (succC s) = some (V (succC s) t) :=
      lookupVal_spec t Final hval _
        (hmem s (List.mem_cons_self _ _) _ (by simp [succsList]))
    have hD : lookupVal Final (succD s) = some (V (succD s) t) :=
      lookupVal_spec t Final hval _
        (hmem s (List.mem_cons_self _ _) _ (by simp [succsList]))
    rw [PNF_rows, hA, hB, hC, hD,
      ih (fun x hx => hmem x (List.mem_cons_of_mem _ hx))]
    rfl

theorem backLoop_spec (a b c d : ℕ) :
    ∀ (j t : ℕ) (T : Table),
      T.map (fun r => r.1) = f a b c d (j + 1) →
      (∀ r ∈ T, r.2.1 = V r.1 t) →
      (∀ r ∈ T, r.2.2 = none ∨ r.2.2 = some 0 ∨ r.2.2 = some 1) →
      ∃ T' : Table, backLoop a b c d j T = some T' ∧
        T'.map (fun r => r.1) = f a b c d 1 ∧
        (∀ r ∈ T', r.2.1 = V r.1 (t + j)) ∧
        (∀ r ∈ T', r.2.2 = none ∨ r.2.2 = some 0 ∨ r.2.2 = some 1) := by
  intro j
  induction j with
  | zero =>
    intro t T hstates hval harm
    exact ⟨T, rfl, hstates, by simpa using hval, harm⟩
  | succ j ih =>
    intro t T hstates hval harm
    have hstrip_val : ∀ r ∈ stripChoice T, r.2 = V r.1 t := by
      intro r hr
      rcases List.mem_map.mp hr with ⟨r0, hr0, rfl⟩
      exact hval r0 hr0
    have hstrip_states : (stripChoice T).map Prod.fst = f a b c d (j + 2) := by
      rw [stripChoice, List.map_map]
      exact hstates
    have hPNF : Previous_Nodes_Func a b c d (j + 1) (stripChoice T) =
        some ((f a b c d (j + 1)).map (fun s => (s, V s (t + 1), Vchoice s t))) := by
      rw [Previous_Nodes_Func]
      refine PNF_rows_spec t (stripChoice T) hstrip_val _ (fun s hs x hx => ?_)
      rw [hstrip_states]
      exact succs_closure a b c d (j + 1) (by omega) s hs x hx
    rw [backLoop, hPNF, Option.some_bind]
    have hnext_states :
        ((((f a b c d (j + 1)).map (fun s => (s, V s (t + 1), Vchoice s t))).map
            (fun r => (r.1, r.2.1, some r.2.2))).map (fun r => r.1)) = f a b c d (j + 1) := by
      rw [List.map_map, List.map_map]
      show List.map id (f a b c d (j + 1)) = f a b c d (j + 1)
      exact List.map_id _
    have hnext_val : ∀ r ∈ (((f a b c d (j + 1)).map
          (fun s => (s, V s (t + 1), Vchoice s t))).map (fun r => (r.1, r.2.1, some r.2.2))),
        r.2.1 = V r.1 (t + 1) := by
      intro r hr
      rcases List.mem_map.mp hr with ⟨r0, hr0, rfl⟩
      rcases List.mem_map.mp hr0 with ⟨s, _, rfl⟩
      rfl
    have hnext_arm : ∀ r ∈ (((f a b c d (j + 1)).map
          (fun s => (s, V s (t + 1), Vchoice s t))).map (fun r => (r.1, r.2.1, some r.2.2))),
        r.2.2 = none ∨ r.2.2 = some 0 ∨ r.2.2 = some 1 := by
      intro r hr
      rcases List.mem_map.mp hr with ⟨r0, hr0, rfl⟩
      rcases List.mem_map.mp hr0 with ⟨s, _, rfl⟩
      have hch : Vchoice s t = 0 ∨ Vchoice s t = 1 :=
        round_minimize_scalar_mem (V (succA s) t) (V (succB s) t) (V (succC s) t)
          (V (succD s) t)
      rcases hch with h0 | h1
      · exact Or.inr (Or.inl (congrArg some h0))
      · exact Or.inr (Or.inr (congrArg some h1))
    rcases ih (t + 1) _ hnext_states hnext_val hnext_arm with ⟨T', hT', hs', hv', ha'⟩
    refine ⟨T', hT', hs', ?_, ha'⟩
    intro r hr
    rw [hv' r hr]
    congr 1
    omega

/-- The solver run with at least one trial: the returned table has exactly one
row, carrying the initial state, the value `V` of the initial state after
`N - 1` backward steps, and a choice column that is absent for `N = 1` and
otherwise equal to `0` or `1`. -/
theorem Bernoulli_Bandit_spec (a b c d N : ℕ) (hN : 1 ≤ N) :
    ∃ arm : Option ℚ, Bernoulli_Bandit a b c d N =
        some [(⟨a, b, c, d⟩, V ⟨a, b, c, d⟩ (N - 1), arm)] ∧
      (arm = none ∨ arm = some 0 ∨ arm = some 1) := by
  have hstates : ((f a b c d N).map (fun s => (s, terminalValue s, (none : Option ℚ)))).map
      (fun r => r.1) = f a b c d ((N - 1) + 1) := by
    rw [show N - 1 + 1 = N from by omega, List.map_map]
    show List.map id (f a b c d N) = f a b c d N
    exact List.map_id _
  have hval : ∀ r ∈ (f a b c d N).map (fun s => (s, terminalValue s, (none : Option ℚ))),
      r.2.1 = V r.1 0 := by
    intro r hr
    rcases List.mem_map.mp hr with ⟨s, _, rfl⟩
    rfl
  have harm : ∀ r ∈ (f a b c d N).map (fun s => (s, terminalValue s, (none : Option ℚ))),
      r.2.2 = none ∨ r.2.2 = some 0 ∨ r.2.2 = some 1 := by
    intro r hr
    rcases List.mem_map.mp hr with ⟨s, _, rfl⟩
    exact Or.inl rfl
  rcases backLoop_spec a b c d (N - 1) 0 _ hstates hval harm with ⟨T', hT', hs', hv', ha'⟩
  rw [f_one] at hs'
  obtain ⟨r, rfl⟩ : ∃ r, T' = [r] := by
    cases T' with
    | nil => simp at hs'
    | cons r tl =>
      cases tl with
      | nil => exact ⟨r, rfl⟩
      | cons r2 tl2 => simp at hs'
  have hr1 : r.1 = ⟨a, b, c, d⟩ := by simpa using hs'
  have hv : r.2.1 = V ⟨a, b, c, d⟩ (N - 1) := by
    rw [hv' r (List.mem_cons_self _ _), hr1]
    congr 1
    omega
  refine ⟨r.2.2, ?_, ha' r (List.mem_cons_self _ _)⟩
  rw [Bernoulli_Bandit, hT']
  congr 1
  rw [show r = (r.1, r.2.1, r.2.2) from rfl, hr1, hv]

/-- The solver never returns `none`: for `N = 0` the loop body never runs, and
for `N ≥ 1` every successor lookup succeeds by layer closure. -/
theorem Bernoulli_Bandit_isSome (a b c d N : ℕ) :
    (Bernoulli_Bandit a b c d N).isSome = true := by
  rcases Nat.eq_zero_or_pos N with rfl | hN
  · rfl
  · rcases Bernoulli_Bandit_spec a b c d N hN with ⟨arm, heq, _⟩
    rw [heq]
    rfl

/-! ### A missing successor aborts `Previous_Nodes_Func` -/

theorem PNF_rows_none (Final : List (BanditState × ℚ)) :
    ∀ (states : List BanditState) (s : BanditState), s ∈ states →
      (lookupVal Final (succA s) = none ∨ lookupVal Final (succB s) = none ∨
       lookupVal Final (succC s) = none ∨ lookupVal Final (succD s) = none) →
      PNF_rows Final states = none := by
  intro states
  induction states with
  | nil => intro s hs _; simp at hs
  | cons x rest ih =>
    intro s hs hnone
    rcases hA : lookupVal Final (succA x) with _ | E1
    · simp [PNF_rows, hA]
    · rcases hB : lookupVal Final (succB x) with _ | E2
      · simp [PNF_rows, hA, hB]
      · rcases hC : lookupVal Final (succC x) with _ | E3
        · simp [PNF_rows, hA, hB, hC]
        · rcases hD : lookupVal Final (succD x) with _ | E4
          · simp [PNF_rows, hA, hB, hC, hD]
          · rcases List.mem_cons.mp hs with rfl | hs'
            · exfalso
              rcases hnone with h | h | h | h
              · rw [hA] at h; exact Option.noConfusion h
              · rw [hB] at h; exact Option.noConfusion h
              · rw [hC] at h; exact Option.noConfusion h
              · rw [hD] at h; exact Option.noConfusion h
            · simp [PNF_rows, hA, hB, hC, hD, ih s hs' hnone]

/-! ### Swapping the arm labels -/

theorem terminalValue_swap (s : BanditState) :
    terminalValue (swapArms s) = terminalValue s :=
  max_comm _ _

theorem V_swap (s : BanditState) (t : ℕ) : V (swapArms s) t = V s t := by
  induction t generalizing s with
  | zero => exact terminalValue_swap s
  | succ t ih =>
    rw [V_succ_eq_max, V_succ_eq_max,
      show succA (swapArms s) = swapArms (succC s) from rfl,
      show succB (swapArms s) = swapArms (succD s) from rfl,
      show succC (swapArms s) = swapArms (succA s) from rfl,
      show succD (swapArms s) = swapArms (succB s) from rfl,
      ih (succC s), ih (succD s), ih (succA s), ih (succB s)]
    exact max_comm _ _

theorem armValue1_swap (s : BanditState) (t : ℕ) :
    armValue1 (swapArms s) t = armValue2 s t := by
  rw [armValue1, armValue2, neg_minimize_func_one, neg_minimize_func_zero,
    show succA (swapArms s) = swapArms (succC s) from rfl,
    show succB (swapArms s) = swapArms (succD s) from rfl,
    V_swap, V_swap]

theorem armValue2_swap (s : BanditState) (t : ℕ) :
    armValue2 (swapArms s) t = armValue1 s t := by
  rw [armValue1, armValue2, neg_minimize_func_one, neg_minimize_func_zero,
    show succC (swapArms s) = swapArms (succA s) from rfl,
    show succD (swapArms s) = swapArms (succB s) from rfl,
    V_swap, V_swap]

/-! ### Claim theorems -/

/-- C1: the claim states that for a non-terminal layer the solver computes
`V(s,t)` as the maximum over the two arms of the immediate posterior-mean
reward plus the posterior-probability-weighted successor values.  The code
does not: `minimize_func` adds the reward `1` unconditionally and sums both
successors' values unweighted, so at state (2,1,1,1) with 2 trials remaining
the solver returns 7/3 (impossible for two Bernoulli trials, whose expected
sum is at most 2), while the claimed recursion (`specV`, modelled from the
spec) gives 4/3. -/
theorem backward_recursion_drops_posterior_weights :
    Bernoulli_Bandit 2 1 1 1 2 = some [(⟨2, 1, 1, 1⟩, 7/3, some 0)]
    ∧ V ⟨2, 1, 1, 1⟩ 1 = 7/3
    ∧ specV ⟨2, 1, 1, 1⟩ 1 = 4/3
    ∧ (7 : ℚ)/3 ≠ (4 : ℚ)/3 := by
  refine ⟨?_, ?_, ?_, by norm_num⟩
  · norm_num [Bernoulli_Bandit, backLoop, Previous_Nodes_Func, PNF_rows, f, layerStep,
      drop_duplicates, dropDupAux, stripChoice, lookupVal, succsList, succA, succB, succC,
      succD, terminalValue, minimize_func, round_minimize_scalar, List.find?]
  · norm_num [V, terminalValue, minimize_func, round_minimize_scalar, succA, succB,
      succC, succD]
  · norm_num [specV, postMean1, postMean2, terminalValue, succA, succB, succC, succD]

/-- C2: for every valid initial state (counts ≥ 1) the enumerator's layer of
states reachable after `k` pulls (the notebook's `f(a,b,c,d,k+1)`) is a
duplicate-free list of exactly `C(k+3,3)` states. -/
theorem enumerator_layer_count (a b c d k : ℕ)
    (ha : 1 ≤ a) (hb : 1 ≤ b) (hc : 1 ≤ c) (hd : 1 ≤ d) :
    (f a b c d (k + 1)).Nodup ∧ (f a b c d (k + 1)).length = (k + 3).choose 3 :=
  ⟨nodup_f a b c d (k + 1), f_length a b c d k⟩

/-- C2 witness: the layer after 3 pulls from (1,1,1,1) is duplicate-free and
has C(6,3) = 20 states. -/
theorem enumerator_layer_count_witness :
    (f 1 1 1 1 4).Nodup ∧ (f 1 1 1 1 4).length = 20 :=
  enumerator_layer_count 1 1 1 1 3 (by decide) (by decide) (by decide) (by decide)

/-- C3: the greedy terminal evaluator is `max(α₁/(α₁+β₁), α₂/(α₂+β₂))`; the
solver at `N = 1` assigns exactly this value to every terminal-layer state,
and on (3,1,1,1) it returns 3/4 = 0.75. -/
theorem terminal_evaluator_greedy_max :
    (∀ s : BanditState, terminalValue s =
        max ((s.a1 : ℚ) / ((s.a1 : ℚ) + (s.b1 : ℚ))) ((s.a2 : ℚ) / ((s.a2 : ℚ) + (s.b2 : ℚ))))
    ∧ (∀ a b c d : ℕ, Bernoulli_Bandit a b c d 1 =
        some ((f a b c d 1).map (fun s => (s, terminalValue s, none))))
    ∧ terminalValue ⟨3, 1, 1, 1⟩ = 3/4 :=
  ⟨fun _ => rfl, fun _ _ _ _ => rfl, by norm_num [terminalValue]⟩

/-- C4: minimizing the continuous relaxation over the mixing parameter
`p ∈ [0,1]` and rounding the optimum to {0,1} yields exactly the direct
discrete maximization of the two arms' computed values. -/
theorem relaxation_round_eq_direct_max (E1 E2 E3 E4 : ℚ) :
    (round_minimize_scalar E1 E2 E3 E4 = 0 ∨ round_minimize_scalar E1 E2 E3 E4 = 1)
    ∧ -(minimize_func (round_minimize_scalar E1 E2 E3 E4) E1 E2 E3 E4) =
        direct_two_way_max E1 E2 E3 E4 :=
  ⟨round_minimize_scalar_mem E1 E2 E3 E4, by
    rw [neg_minimize_func_round, direct_two_way_max, neg_minimize_func_one,
      neg_minimize_func_zero]⟩

/-- C5: if a successor state of a node is missing from the next-layer table,
`Previous_Nodes_Func` aborts with an error (embedded as `none`) and never
silently defaults; and when the inputs come from the enumerator the lookups
always succeed, so the whole solver returns a result for every `N ≥ 1`. -/
theorem successor_lookup_total_or_error :
    (∀ a1 b1 a2 b2 N : ℕ, 1 ≤ N → (Bernoulli_Bandit a1 b1 a2 b2 N).isSome = true)
    ∧ (∀ (a1 b1 a2 b2 N : ℕ) (Final : List (BanditState × ℚ)) (s : BanditState),
        s ∈ f a1 b1 a2 b2 N →
        (lookupVal Final (succA s) = none ∨ lookupVal Final (succB s) = none ∨
         lookupVal Final (succC s) = none ∨ lookupVal Final (succD s) = none) →
        Previous_Nodes_Func a1 b1 a2 b2 N Final = none) := by
  constructor
  · intro a1 b1 a2 b2 N hN
    rcases Bernoulli_Bandit_spec a1 b1 a2 b2 N hN with ⟨arm, heq, _⟩
    rw [heq]
    rfl
  · intro a1 b1 a2 b2 N Final s hs hnone
    exact PNF_rows_none Final _ s hs hnone

/-- C5 witness: the solver succeeds on (1,1,1,1) with N = 2, and
`Previous_Nodes_Func` with an empty next-layer table reports an error. -/
theorem successor_lookup_total_or_error_witness :
    (Bernoulli_Bandit 1 1 1 1 2).isSome = true
    ∧ Previous_Nodes_Func 1 1 1 1 1 [] = none :=
  ⟨successor_lookup_total_or_error.1 1 1 1 1 2 (by decide),
   successor_lookup_total_or_error.2 1 1 1 1 1 [] ⟨1, 1, 1, 1⟩ (by decide) (Or.inl rfl)⟩

/-- C6: in the N = 2 scenario from (1,1,1,1) the four terminal-layer values
are 2/3, 1/2, 2/3, 1/2 as claimed, but the solver's value at the initial state
is 13/6 ≈ 2.1667, not the claimed 1.0835 (= 13/12 up to the spec's rounding):
the missing posterior weights in `minimize_func` double-count the successor
values. -/
theorem scenario_two_trials_value :
    terminalValue ⟨2, 1, 1, 1⟩ = 2/3
    ∧ terminalValue ⟨1, 2, 1, 1⟩ = 1/2
    ∧ terminalValue ⟨1, 1, 2, 1⟩ = 2/3
    ∧ terminalValue ⟨1, 1, 1, 2⟩ = 1/2
    ∧ Bernoulli_Bandit 1 1 1 1 2 = some [(⟨1, 1, 1, 1⟩, 13/6, some 0)]
    ∧ ((13 : ℚ)/6 ≠ 13/12) := by
  refine ⟨by norm_num [terminalValue], by norm_num [terminalValue], by norm_num [terminalValue],
    by norm_num [terminalValue], ?_, by norm_num⟩
  norm_num [Bernoulli_Bandit, backLoop, Previous_Nodes_Func, PNF_rows, f, layerStep,
    drop_duplicates, dropDupAux, stripChoice, lookupVal, succsList, succA, succB, succC,
    succD, terminalValue, minimize_func, round_minimize_scalar, List.find?]

/-- C7 counterexample: the arm column the solver reports is not an element of
{1, 2}: at (1,2,1,1) with N = 2 the reported arm is 0, and at N = 1 the
returned table carries no arm column at all. -/
theorem arm_label_counterexample :
    Bernoulli_Bandit 1 2 1 1 2 = some [(⟨1, 2, 1, 1⟩, 2, some 0)]
    ∧ ¬((0 : ℚ) = 1 ∨ (0 : ℚ) = 2)
    ∧ Bernoulli_Bandit 1 1 1 1 1 = some [(⟨1, 1, 1, 1⟩, 1/2, none)] := by
  refine ⟨?_, by norm_num, ?_⟩
  · norm_num [Bernoulli_Bandit, backLoop, Previous_Nodes_Func, PNF_rows, f, layerStep,
      drop_duplicates, dropDupAux, stripChoice, lookupVal, succsList, succA, succB, succC,
      succD, terminalValue, minimize_func, round_minimize_scalar, List.find?]
  · norm_num [Bernoulli_Bandit, backLoop, f, terminalValue]

/-- C7 amended: for every valid input the solver returns a table in which
every value is a non-negative rational and the arm column is either absent
(terminal table, N = 1) or an element of {0, 1}, where 1 encodes arm 1 and 0
encodes arm 2. -/
theorem result_value_nonneg_arm_in_01 (a1 b1 a2 b2 N : ℕ)
    (ha1 : 1 ≤ a1) (hb1 : 1 ≤ b1) (ha2 : 1 ≤ a2) (hb2 : 1 ≤ b2) (hN : 1 ≤ N) :
    ∃ T : Table, Bernoulli_Bandit a1 b1 a2 b2 N = some T ∧
      ∀ r ∈ T, 0 ≤ r.2.1 ∧ (r.2.2 = none ∨ r.2.2 = some 0 ∨ r.2.2 = some 1) := by
  rcases Bernoulli_Bandit_spec a1 b1 a2 b2 N hN with ⟨arm, heq, harm⟩
  refine ⟨_, heq, ?_⟩
  intro r hr
  rcases List.mem_singleton.mp hr with rfl
  exact ⟨V_nonneg _ _, harm⟩

/-- C7 amended witness: instantiated at (1,1,1,1) with N = 2. -/
theorem result_value_nonneg_arm_in_01_witness :
    ∃ T : Table, Bernoulli_Bandit 1 1 1 1 2 = some T ∧
      ∀ r ∈ T, 0 ≤ r.2.1 ∧ (r.2.2 = none ∨ r.2.2 = some 0 ∨ r.2.2 = some 1) :=
  result_value_nonneg_arm_in_01 1 1 1 1 2 (by decide) (by decide) (by decide)
    (by decide) (by decide)

/-- C8 counterexample: no input is rejected: with trials_remaining = 0 the
solver still enumerates and returns a table, and so does a prior count of 0. -/
theorem no_input_validation_counterexample :
    (Bernoulli_Bandit 1 1 1 1 0).isSome = true
    ∧ (Bernoulli_Bandit 0 1 1 1 1).isSome = true :=
  ⟨rfl, rfl⟩

/-- C8 amended: the code performs no input validation at all: the solver
returns a table for every input, including trials_remaining < 1 and prior
counts < 1. -/
theorem solver_never_rejects (a1 b1 a2 b2 N : ℕ) :
    (Bernoulli_Bandit a1 b1 a2 b2 N).isSome = true :=
  Bernoulli_Bandit_isSome a1 b1 a2 b2 N

/-- C9: swapping the two arms' pseudo-count pairs swaps the two arms'
computed values at every state and every number of backward steps, and
consequently at the symmetric state (1,1,1,1) the two arms' computed values
coincide at every depth. -/
theorem swap_arms_symmetry :
    (∀ (s : BanditState) (t : ℕ),
      armValue1 (swapArms s) t = armValue2 s t ∧ armValue2 (swapArms s) t = armValue1 s t)
    ∧ (∀ t : ℕ, armValue1 ⟨1, 1, 1, 1⟩ t = armValue2 ⟨1, 1, 1, 1⟩ t) := by
  constructor
  · exact fun s t => ⟨armValue1_swap s t, armValue2_swap s t⟩
  · intro t
    have h : armValue1 (swapArms ⟨1, 1, 1, 1⟩) t = armValue2 ⟨1, 1, 1, 1⟩ t :=
      armValue1_swap ⟨1, 1, 1, 1⟩ t
    exact h

/-- C10: every state that the enumerator produces keeps all four pseudo-counts
≥ 1 and has coordinate sum equal to the initial sum plus the number of pulls;
each enumeration step increments exactly one of the four coordinates by 1. -/
theorem enumerator_state_invariants :
    (∀ a b c d k : ℕ, 1 ≤ a → 1 ≤ b → 1 ≤ c → 1 ≤ d →
      ∀ s ∈ f a b c d (k + 1),
        1 ≤ s.a1 ∧ 1 ≤ s.b1 ∧ 1 ≤ s.a2 ∧ 1 ≤ s.b2 ∧
        s.a1 + s.b1 + s.a2 + s.b2 = a + b + c + d + k)
    ∧ (∀ s x : BanditState, x ∈ succsList s →
        (x.a1 = s.a1 + 1 ∧ x.b1 = s.b1 ∧ x.a2 = s.a2 ∧ x.b2 = s.b2) ∨
        (x.a1 = s.a1 ∧ x.b1 = s.b1 + 1 ∧ x.a2 = s.a2 ∧ x.b2 = s.b2) ∨
        (x.a1 = s.a1 ∧ x.b1 = s.b1 ∧ x.a2 = s.a2 + 1 ∧ x.b2 = s.b2) ∨
        (x.a1 = s.a1 ∧ x.b1 = s.b1 ∧ x.a2 = s.a2 ∧ x.b2 = s.b2 + 1)) := by
  constructor
  · intro a b c d k ha hb hc hd s hs
    rcases (mem_f a b c d k s).mp hs with ⟨i, j, l, m, hsum, rfl⟩
    refine ⟨by simp; omega, by simp; omega, by simp; omega, by simp; omega, by simp; omega⟩
  · intro s x hx
    simp only [succsList, succA, succB, succC, succD, List.mem_cons,
      List.mem_singleton, List.not_mem_nil, or_false] at hx
    rcases hx with rfl | rfl | rfl | rfl
    · exact Or.inl ⟨rfl, rfl, rfl, rfl⟩
    · exact Or.inr (Or.inl ⟨rfl, rfl, rfl, rfl⟩)
    · exact Or.inr (Or.inr (Or.inl ⟨rfl, rfl, rfl, rfl⟩))
    · exact Or.inr (Or.inr (Or.inr ⟨rfl, rfl, rfl, rfl⟩))

/-- C10 witness: instantiated at the layer after one pull from (1,1,1,1) and
at the successor (1,2,1,1) of (1,1,1,1). -/
theorem enumerator_state_invariants_witness :
    (1 ≤ (⟨2, 1, 1, 1⟩ : BanditState).a1 ∧ 1 ≤ (⟨2, 1, 1, 1⟩ : BanditState).b1 ∧
      1 ≤ (⟨2, 1, 1, 1⟩ : BanditState).a2 ∧ 1 ≤ (⟨2, 1, 1, 1⟩ : BanditState).b2 ∧
      (⟨2, 1, 1, 1⟩ : BanditState).a1 + (⟨2, 1, 1, 1⟩ : BanditState).b1 +
        (⟨2, 1, 1, 1⟩ : BanditState).a2 + (⟨2, 1, 1, 1⟩ : BanditState).b2 = 1 + 1 + 1 + 1 + 1)
    ∧ (((⟨1, 2, 1, 1⟩ : BanditState).a1 = (⟨1, 1, 1, 1⟩ : BanditState).a1 + 1 ∧
          (⟨1, 2, 1, 1⟩ : BanditState).b1 = (⟨1, 1, 1, 1⟩ : BanditState).b1 ∧
          (⟨1, 2, 1, 1⟩ : BanditState).a2 = (⟨1, 1, 1, 1⟩ : BanditState).a2 ∧
          (⟨1, 2, 1, 1⟩ : BanditState).b2 = (⟨1, 1, 1, 1⟩ : BanditState).b2) ∨
        ((⟨1, 2, 1, 1⟩ : BanditState).a1 = (⟨1, 1, 1, 1⟩ : BanditState).a1 ∧
          (⟨1, 2, 1, 1⟩ : BanditState).b1 = (⟨1, 1, 1, 1⟩ : BanditState).b1 + 1 ∧
          (⟨1, 2, 1, 1⟩ : BanditState).a2 = (⟨1, 1, 1, 1⟩ : BanditState).a2 ∧
          (⟨1, 2, 1, 1⟩ : BanditState).b2 = (⟨1, 1, 1, 1⟩ : BanditState).b2) ∨
        ((⟨1, 2, 1, 1⟩ : BanditState).a1 = (⟨1, 1, 1, 1⟩ : BanditState).a1 ∧
          (⟨1, 2, 1, 1⟩ : BanditState).b1 = (⟨1, 1, 1, 1⟩ : BanditState).b1 ∧
          (⟨1, 2, 1, 1⟩ : BanditState).a2 = (⟨1, 1, 1, 1⟩ : BanditState).a2 + 1 ∧
          (⟨1, 2, 1, 1⟩ : BanditState).b2 = (⟨1, 1, 1, 1⟩ : BanditState).b2) ∨
        ((⟨1, 2, 1, 1⟩ : BanditState).a1 = (⟨1, 1, 1, 1⟩ : BanditState).a1 ∧
          (⟨1, 2, 1, 1⟩ : BanditState).b1 = (⟨1, 1, 1, 1⟩ : BanditState).b1 ∧
          (⟨1, 2, 1, 1⟩ : BanditState).a2 = (⟨1, 1, 1, 1⟩ : BanditState).a2 ∧
          (⟨1, 2, 1, 1⟩ : BanditState).b2 = (⟨1, 1, 1, 1⟩ : BanditState).b2 + 1)) :=
  ⟨enumerator_state_invariants.1 1 1 1 1 1 (by decide) (by decide) (by decide) (by decide)
      ⟨2, 1, 1, 1⟩ (by decide),
   enumerator_state_invariants.2 ⟨1, 1, 1, 1⟩ ⟨1, 2, 1, 1⟩ (by decide)⟩

end BanditNB

